import Mathlib

/-!
Verification of the gosonic repository (a small CI build tool).

Go strings are embedded as lists of characters (`Str`).  The functions of
`lib/docker.go`, `lib/audit.go` and `main.go` that the claims mention are
translated below, keeping their source names where Lean permits.  External
effects (process execution, the git call, filesystem and object-store writes,
wall-clock time) are passed in explicitly as oracle parameters, so each Go
function becomes a pure Lean function whose outputs include the sequence of
store writes it performs and the value it returns.
-/

set_option maxHeartbeats 1000000

/-- Go strings, embedded as lists of characters. -/
abbrev Str := List Char

/-- Shorthand turning a Lean string literal into the embedding type. -/
def str (x : String) : Str := x.toList

deriving instance DecidableEq for Except

/-- Embedding of Go `strings.Split` with a one-character separator:
`splitOn sep s` cuts `s` at every occurrence of `sep`; the result is never
empty, and `splitOn sep [] = [[]]` just as `strings.Split("", sep)` yields
one empty field. -/
def splitOn (sep : Char) : Str → List Str
  | [] => [[]]
  | c :: rest =>
    if c = sep then [] :: splitOn sep rest
    else List.modifyHead (fun t => c :: t) (splitOn sep rest)

/-- Embedding of Go `strings.Join`: interleave `sep` between the elements. -/
def joinStr (sep : Str) : List Str → Str
  | [] => []
  | [x] => x
  | x :: xs => x ++ sep ++ joinStr sep xs

theorem splitOn_nil (sep : Char) : splitOn sep [] = [[]] := rfl

theorem splitOn_cons_self (sep : Char) (r : Str) :
    splitOn sep (sep :: r) = [] :: splitOn sep r := by
  simp [splitOn]

theorem splitOn_cons_ne (sep c : Char) (r : Str) (h : c ≠ sep) :
    splitOn sep (c :: r) = List.modifyHead (fun t => c :: t) (splitOn sep r) := by
  simp [splitOn, h]

theorem splitOn_ne_nil (sep : Char) (s : Str) : splitOn sep s ≠ [] := by
  induction s with
  | nil => simp [splitOn]
  | cons c r ih =>
    by_cases h : c = sep
    · subst h; simp [splitOn_cons_self]
    · rw [splitOn_cons_ne sep c r h]
      cases hr : splitOn sep r with
      | nil => exact absurd hr ih
      | cons y ys => simp [List.modifyHead]

theorem joinStr_cons_cons (sep : Str) (x y : Str) (ys : List Str) :
    joinStr sep (x :: y :: ys) = x ++ sep ++ joinStr sep (y :: ys) := rfl

theorem joinStr_modifyHead_cons (sep : Str) (a : Char) (y : Str) (ys : List Str) :
    joinStr sep ((a :: y) :: ys) = a :: joinStr sep (y :: ys) := by
  cases ys with
  | nil => rfl
  | cons z zs => simp [joinStr_cons_cons]

/-- Joining the pieces of a split restores the original string. -/
theorem joinStr_splitOn (sep : Char) (s : Str) :
    joinStr [sep] (splitOn sep s) = s := by
  induction s with
  | nil => rfl
  | cons c r ih =>
    by_cases h : c = sep
    · rw [h, splitOn_cons_self]
      cases hr : splitOn sep r with
      | nil => exact absurd hr (splitOn_ne_nil sep r)
      | cons y ys =>
        rw [hr] at ih
        simp [joinStr_cons_cons, ih]
    · rw [splitOn_cons_ne sep c r h]
      cases hr : splitOn sep r with
      | nil => exact absurd hr (splitOn_ne_nil sep r)
      | cons y ys =>
        rw [hr] at ih
        simp only [List.modifyHead, joinStr_modifyHead_cons, ih]

/-- Every piece of a split is free of the separator. -/
theorem sep_not_mem_of_mem_splitOn (sep : Char) (s : Str) :
    ∀ t ∈ splitOn sep s, sep ∉ t := by
  induction s with
  | nil => intro t ht; simp [splitOn] at ht; simp [ht]
  | cons c r ih =>
    intro t ht
    by_cases h : c = sep
    · rw [h, splitOn_cons_self] at ht
      rcases List.mem_cons.mp ht with ht | ht
      · simp [ht]
      · exact ih t ht
    · rw [splitOn_cons_ne sep c r h] at ht
      cases hr : splitOn sep r with
      | nil => exact absurd hr (splitOn_ne_nil sep r)
      | cons y ys =>
        rw [hr] at ht
        simp only [List.modifyHead] at ht
        rcases List.mem_cons.mp ht with ht | ht
        · have hy : sep ∉ y := ih y (hr ▸ List.mem_cons_self y ys)
          rw [ht]
          simp [Ne.symm h, hy]
        · exact ih t (hr ▸ List.mem_cons_of_mem y ht)

/-- A character absent from the whole string is absent from every piece. -/
theorem not_mem_of_mem_splitOn (sep : Char) (c : Char) (s : Str) (hc : c ∉ s) :
    ∀ t ∈ splitOn sep s, c ∉ t := by
  induction s with
  | nil => intro t ht; simp [splitOn] at ht; simp [ht]
  | cons a r ih =>
    intro t ht
    have hca : c ≠ a := fun h => hc (h ▸ List.mem_cons_self a r)
    have hcr : c ∉ r := fun h => hc (List.mem_cons_of_mem a h)
    by_cases h : a = sep
    · rw [h, splitOn_cons_self] at ht
      rcases List.mem_cons.mp ht with ht | ht
      · simp [ht]
      · exact ih hcr t ht
    · rw [splitOn_cons_ne sep a r h] at ht
      cases hr : splitOn sep r with
      | nil => exact absurd hr (splitOn_ne_nil sep r)
      | cons y ys =>
        rw [hr] at ht
        simp only [List.modifyHead] at ht
        rcases List.mem_cons.mp ht with ht | ht
        · have hy : c ∉ y := ih hcr y (hr ▸ List.mem_cons_self y ys)
          rw [ht]
          simp [hca, hy]
        · exact ih hcr t (hr ▸ List.mem_cons_of_mem y ht)

/-- Splitting a separator-free string yields a single piece. -/
theorem splitOn_of_not_mem (sep : Char) {s : Str} (h : sep ∉ s) :
    splitOn sep s = [s] := by
  induction s with
  | nil => rfl
  | cons c r ih =>
    have hcs : c ≠ sep := fun hb => h (hb ▸ List.mem_cons_self c r)
    have hr : sep ∉ r := fun hb => h (List.mem_cons_of_mem c hb)
    rw [splitOn_cons_ne sep c r hcs, ih hr]
    rfl

/-- Splitting distributes over an explicit separator occurrence. -/
theorem splitOn_append_cons (sep : Char) (a b : Str) :
    splitOn sep (a ++ sep :: b) = splitOn sep a ++ splitOn sep b := by
  induction a with
  | nil => simp [splitOn_cons_self, splitOn]
  | cons c r ih =>
    by_cases h : c = sep
    · subst h
      rw [List.cons_append, splitOn_cons_self, splitOn_cons_self, ih]
      rfl
    · rw [List.cons_append, splitOn_cons_ne sep c _ h, splitOn_cons_ne sep c r h, ih]
      cases hr : splitOn sep r with
      | nil => exact absurd hr (splitOn_ne_nil sep r)
      | cons y ys => simp [List.modifyHead]

/-- Splitting the join of separator-free pieces recovers the pieces. -/
theorem splitOn_joinStr (sep : Char) (l : List Str) (hl : l ≠ [])
    (hfree : ∀ t ∈ l, sep ∉ t) : splitOn sep (joinStr [sep] l) = l := by
  induction l with
  | nil => exact absurd rfl hl
  | cons x xs ih =>
    cases xs with
    | nil =>
      have hx : sep ∉ x := hfree x (List.mem_cons_self x [])
      simp [joinStr, splitOn_of_not_mem sep hx]
    | cons y ys =>
      have hrest : ∀ t ∈ y :: ys, sep ∉ t := fun t ht =>
        hfree t (List.mem_cons_of_mem x ht)
      have hx : sep ∉ x := hfree x (List.mem_cons_self x _)
      rw [joinStr_cons_cons]
      rw [List.append_assoc, List.singleton_append]
      rw [splitOn_append_cons, splitOn_of_not_mem sep hx,
        ih (by simp) hrest]
      rfl

/-- `lib/docker.go`: a parsed Docker image reference.  Go's zero value for a
string field is the empty string, so absent components are `[]`. -/
structure ImageRef where
  Domain : Str := []
  ContextPath : Str := []
  Name : Str := []
  Tag : Str := []
  Digest : Str := []
deriving DecidableEq, Repr

/-- `lib/docker.go` `ParseImageRef`: split on `/`; the first segment is the
domain iff more than one segment exists and it contains `.` or `:`; the last
remaining segment is split on `@` (digest) and then on `:` (name, tag); the
middle segments are rejoined as the context path. -/
def ParseImageRef (ref : Str) : ImageRef :=
  if ref = [] then {} else
  let parts0 := splitOn '/' ref
  let hasDom := 1 < parts0.length ∧ ('.' ∈ parts0.headD [] ∨ ':' ∈ parts0.headD [])
  let domain := if hasDom then parts0.headD [] else []
  let parts := if hasDom then parts0.tail else parts0
  if 0 < parts.length then
    let lastPart := parts.getLastD []
    let nameAndDigest := splitOn '@' lastPart
    let nameAndTag := splitOn ':' (nameAndDigest.headD [])
    { Domain := domain
      ContextPath := if 1 < parts.length then joinStr ['/'] parts.dropLast else []
      Name := nameAndTag.headD []
      Tag := nameAndTag.getD 1 []
      Digest := nameAndDigest.getD 1 [] }
  else { Domain := domain }

/-- `lib/docker.go` `ImageRef.String`: join the non-empty components of
domain, context path and name with `/`, then append `:tag` and `@digest`
when present. -/
def ImageRef.toString (i : ImageRef) : Str :=
  let parts := (if i.Domain ≠ [] then [i.Domain] else []) ++
               (if i.ContextPath ≠ [] then [i.ContextPath] else []) ++ [i.Name]
  let ref1 := joinStr ['/'] parts
  let ref2 := if i.Tag ≠ [] then ref1 ++ ':' :: i.Tag else ref1
  if i.Digest ≠ [] then ref2 ++ '@' :: i.Digest else ref2

/-- `lib/docker.go` `ResolveRunnerImage`: empty runner falls back to the
hardcoded alpine image under the default registry; otherwise parse, default
the domain when absent, and format. -/
def ResolveRunnerImage (runner defaultRegistry : Str) : Str :=
  if runner = [] then defaultRegistry ++ str "/docker/library/alpine:latest"
  else
    let ref := ParseImageRef runner
    let ref2 := if ref.Domain = [] then { ref with Domain := defaultRegistry } else ref
    ref2.toString

example : ParseImageRef (str "docker.io/library/golang:1.22") =
    { Domain := str "docker.io", ContextPath := str "library",
      Name := str "golang", Tag := str "1.22" } := by decide

example : ParseImageRef (str "public.ecr.aws/docker/library/alpine@sha256:123") =
    { Domain := str "public.ecr.aws", ContextPath := str "docker/library",
      Name := str "alpine", Digest := str "sha256:123" } := by decide

example : ResolveRunnerImage (str "golang:1.22") (str "public.ecr.aws") =
    str "public.ecr.aws/golang:1.22" := by decide

theorem headD_append_of_ne_nil {l : List Str} (l' : List Str) (d : Str)
    (h : l ≠ []) : (l ++ l').headD d = l.headD d := by
  cases l with
  | nil => exact absurd rfl h
  | cons x xs => rfl

theorem headD_mem {l : List Str} (d : Str) (h : l ≠ []) : l.headD d ∈ l := by
  cases l with
  | nil => exact absurd rfl h
  | cons x xs => simp

theorem getLastD_append_single (l : List Str) (a d : Str) :
    (l ++ [a]).getLastD d = a := by
  induction l with
  | nil => rfl
  | cons x xs ih =>
    cases xs with
    | nil => rfl
    | cons y ys => simpa using ih

theorem getLastD_mem {l : List Str} (d : Str) (h : l ≠ []) :
    l.getLastD d ∈ l := by
  induction l with
  | nil => exact absurd rfl h
  | cons x xs ih =>
    cases xs with
    | nil => simp [List.getLastD]
    | cons y ys =>
      have := ih (by simp)
      simp only [List.getLastD] at this ⊢
      exact List.mem_cons_of_mem x this

theorem getD_one_mem (l : List Str) (d : Str) (h : 1 < l.length) :
    l.getD 1 d ∈ l := by
  match l, h with
  | x :: y :: ys, _ => simp [List.getD]

theorem getD_one_default (l : List Str) (d : Str) (h : ¬ 1 < l.length) :
    l.getD 1 d = d := by
  match l with
  | [] => rfl
  | [x] => rfl
  | x :: y :: ys => exact absurd (by simp) h

theorem headD_dropLast {l : List Str} (d : Str) (h : 1 < l.length) :
    l.dropLast.headD d = l.headD d := by
  match l, h with
  | x :: y :: ys, _ => simp [List.dropLast]

theorem mem_of_mem_dropLast {l : List Str} {t : Str} (h : t ∈ l.dropLast) :
    t ∈ l := by
  induction l with
  | nil => simp at h
  | cons x xs ih =>
    cases xs with
    | nil => simp [List.dropLast] at h
    | cons y ys =>
      simp only [List.dropLast] at h
      rcases List.mem_cons.mp h with h | h
      · simp [h]
      · exact List.mem_cons_of_mem x (ih h)

theorem dropLast_ne_nil_of_one_lt {l : List Str} (h : 1 < l.length) :
    l.dropLast ≠ [] := by
  match l, h with
  | x :: y :: ys, _ => simp [List.dropLast]

theorem joinStr_cons_of_ne_nil (sep : Str) (x : Str) {l : List Str}
    (h : l ≠ []) : joinStr sep (x :: l) = x ++ sep ++ joinStr sep l := by
  cases l with
  | nil => exact absurd rfl h
  | cons y ys => rfl

/-- Text appended after the join of a list lands in its last element. -/
theorem joinStr_append_last (c : Char) (l : List Str) (a b : Str) :
    joinStr [c] (l ++ [a]) ++ b = joinStr [c] (l ++ [a ++ b]) := by
  induction l with
  | nil => simp [joinStr]
  | cons x xs ih =>
    rw [List.cons_append, List.cons_append,
      joinStr_cons_of_ne_nil [c] x (by simp),
      joinStr_cons_of_ne_nil [c] x (by simp),
      List.append_assoc (x ++ [c]), ih]

/-- The name/tag/digest portion of `ParseImageRef` (its handling of the last
`/`-segment), as a standalone function for the proofs. -/
def parseNTD (lastPart : Str) : ImageRef :=
  let nameAndDigest := splitOn '@' lastPart
  let nameAndTag := splitOn ':' (nameAndDigest.headD [])
  { Name := nameAndTag.headD []
    Tag := nameAndTag.getD 1 []
    Digest := nameAndDigest.getD 1 [] }

/-- The body of `ParseImageRef` after the split on `/`, as a standalone
function of the segment list. -/
def parseFromParts (parts0 : List Str) : ImageRef :=
  let hasDom := 1 < parts0.length ∧ ('.' ∈ parts0.headD [] ∨ ':' ∈ parts0.headD [])
  let domain := if hasDom then parts0.headD [] else []
  let parts := if hasDom then parts0.tail else parts0
  if 0 < parts.length then
    { parseNTD (parts.getLastD []) with
      Domain := domain
      ContextPath := if 1 < parts.length then joinStr ['/'] parts.dropLast else [] }
  else { Domain := domain }

theorem ParseImageRef_eq_parseFromParts (x : Str) (hx : x ≠ []) :
    ParseImageRef x = parseFromParts (splitOn '/' x) := by
  rw [ParseImageRef, if_neg hx]
  rfl

/-- The last `/`-segment that `ImageRef.toString` produces. -/
def lastSegOf (name tag digest : Str) : Str :=
  name ++ (if tag ≠ [] then ':' :: tag else []) ++
    (if digest ≠ [] then '@' :: digest else [])

/-- Invariant satisfied by every output of `ParseImageRef`, strong enough to
make formatting and re-parsing the identity. -/
def WFRef (r : ImageRef) : Prop :=
  ('/' ∉ r.Name ∧ ':' ∉ r.Name ∧ '@' ∉ r.Name) ∧
  ('/' ∉ r.Tag ∧ ':' ∉ r.Tag ∧ '@' ∉ r.Tag) ∧
  ('/' ∉ r.Digest ∧ '@' ∉ r.Digest) ∧
  ('/' ∉ r.Domain) ∧
  (r.Domain ≠ [] → ('.' ∈ r.Domain ∨ ':' ∈ r.Domain)) ∧
  (r.Domain = [] → r.ContextPath ≠ [] →
    '.' ∉ (splitOn '/' r.ContextPath).headD [] ∧
    ':' ∉ (splitOn '/' r.ContextPath).headD [])

theorem parseNTD_lastSegOf (name tag digest : Str)
    (hn1 : ':' ∉ name) (hn2 : '@' ∉ name)
    (ht1 : ':' ∉ tag) (ht2 : '@' ∉ tag) (hg : '@' ∉ digest) :
    parseNTD (lastSegOf name tag digest) =
      { Name := name, Tag := tag, Digest := digest } := by
  have hac : ('@' : Char) ≠ ':' := by decide
  by_cases hd : digest = [] <;> by_cases h : tag = []
  · have e : lastSegOf name tag digest = name := by simp [lastSegOf, hd, h]
    rw [e]
    have h1 : splitOn '@' name = [name] := splitOn_of_not_mem '@' hn2
    have h2 : splitOn ':' name = [name] := splitOn_of_not_mem ':' hn1
    simp [parseNTD, h1, h2, h, hd]
  · have e : lastSegOf name tag digest = name ++ ':' :: tag := by
      simp [lastSegOf, hd, h]
    rw [e]
    have h1 : splitOn '@' (name ++ ':' :: tag) = [name ++ ':' :: tag] :=
      splitOn_of_not_mem '@' (by simp [hn2, ht2, hac])
    have h2 : splitOn ':' (name ++ ':' :: tag) = [name, tag] := by
      rw [splitOn_append_cons, splitOn_of_not_mem ':' hn1,
        splitOn_of_not_mem ':' ht1]
      rfl
    simp [parseNTD, h1, h2, h, hd]
  · have e : lastSegOf name tag digest = name ++ '@' :: digest := by
      simp [lastSegOf, hd, h]
    rw [e]
    have h1 : splitOn '@' (name ++ '@' :: digest) = [name, digest] := by
      rw [splitOn_append_cons, splitOn_of_not_mem '@' hn2,
        splitOn_of_not_mem '@' hg]
      rfl
    have h2 : splitOn ':' name = [name] := splitOn_of_not_mem ':' hn1
    simp [parseNTD, h1, h2, h, hd]
  · have e : lastSegOf name tag digest =
        name ++ ':' :: (tag ++ '@' :: digest) := by
      simp [lastSegOf, hd, h]
    rw [e]
    have hnt : '@' ∉ name ++ ':' :: tag := by simp [hn2, ht2, hac]
    have h1 : splitOn '@' (name ++ ':' :: (tag ++ '@' :: digest)) =
        [name ++ ':' :: tag, digest] := by
      rw [show name ++ ':' :: (tag ++ '@' :: digest) =
            (name ++ ':' :: tag) ++ '@' :: digest by simp,
        splitOn_append_cons, splitOn_of_not_mem '@' hnt,
        splitOn_of_not_mem '@' hg]
      rfl
    have h2 : splitOn ':' (name ++ ':' :: tag) = [name, tag] := by
      rw [splitOn_append_cons, splitOn_of_not_mem ':' hn1,
        splitOn_of_not_mem ':' ht1]
      rfl
    simp [parseNTD, h1, h2, h, hd]

theorem toString_decomp (r : ImageRef) :
    r.toString = joinStr ['/']
      (((if r.Domain ≠ [] then [r.Domain] else []) ++
        (if r.ContextPath ≠ [] then [r.ContextPath] else [])) ++
        [lastSegOf r.Name r.Tag r.Digest]) := by
  have base : ∀ pre : List Str,
      joinStr ['/'] (pre ++ [r.Name]) ++
        ((if r.Tag ≠ [] then ':' :: r.Tag else []) ++
         (if r.Digest ≠ [] then '@' :: r.Digest else [])) =
      joinStr ['/'] (pre ++ [lastSegOf r.Name r.Tag r.Digest]) := by
    intro pre
    rw [← List.append_assoc, joinStr_append_last, joinStr_append_last,
      lastSegOf]
  have shape : r.toString = joinStr ['/']
      (((if r.Domain ≠ [] then [r.Domain] else []) ++
        (if r.ContextPath ≠ [] then [r.ContextPath] else [])) ++ [r.Name]) ++
      ((if r.Tag ≠ [] then ':' :: r.Tag else []) ++
       (if r.Digest ≠ [] then '@' :: r.Digest else [])) := by
    by_cases ht : r.Tag = [] <;> by_cases hd : r.Digest = [] <;>
      simp [ImageRef.toString, ht, hd, List.append_assoc]
  rw [shape, base]

theorem parseFromParts_cons_domain (d : Str) (rest : List Str)
    (hrest : rest ≠ []) (hmark : '.' ∈ d ∨ ':' ∈ d) :
    parseFromParts (d :: rest) =
      { parseNTD (rest.getLastD []) with
        Domain := d
        ContextPath :=
          if 1 < rest.length then joinStr ['/'] rest.dropLast else [] } := by
  have hpos : 0 < rest.length := by
    cases rest with
    | nil => exact absurd rfl hrest
    | cons y ys => simp
  have hlen : 1 < (d :: rest).length := by simpa using hpos
  have hcond : 1 < (d :: rest).length ∧ ('.' ∈ d ∨ ':' ∈ d) :=
    ⟨hlen, hmark⟩
  simp only [parseFromParts, List.tail_cons, List.headD_cons, if_pos hcond,
    if_pos hpos]

theorem parseFromParts_no_domain (parts0 : List Str) (h0 : parts0 ≠ [])
    (hnd : ¬(1 < parts0.length ∧
      ('.' ∈ parts0.headD [] ∨ ':' ∈ parts0.headD []))) :
    parseFromParts parts0 =
      { parseNTD (parts0.getLastD []) with
        Domain := []
        ContextPath :=
          if 1 < parts0.length then joinStr ['/'] parts0.dropLast else [] } := by
  have hpos : 0 < parts0.length := by
    cases parts0 with
    | nil => exact absurd rfl h0
    | cons y ys => simp
  simp only [parseFromParts, if_neg hnd, if_pos hpos]

theorem parseNTD_wf (lastPart : Str) (h : '/' ∉ lastPart) :
    ('/' ∉ (parseNTD lastPart).Name ∧ ':' ∉ (parseNTD lastPart).Name ∧
      '@' ∉ (parseNTD lastPart).Name) ∧
    ('/' ∉ (parseNTD lastPart).Tag ∧ ':' ∉ (parseNTD lastPart).Tag ∧
      '@' ∉ (parseNTD lastPart).Tag) ∧
    ('/' ∉ (parseNTD lastPart).Digest ∧ '@' ∉ (parseNTD lastPart).Digest) := by
  have hnd0mem : (splitOn '@' lastPart).headD [] ∈ splitOn '@' lastPart :=
    headD_mem [] (splitOn_ne_nil '@' lastPart)
  have hnd0at : '@' ∉ (splitOn '@' lastPart).headD [] :=
    sep_not_mem_of_mem_splitOn '@' lastPart _ hnd0mem
  have hnd0sl : '/' ∉ (splitOn '@' lastPart).headD [] :=
    not_mem_of_mem_splitOn '@' '/' lastPart h _ hnd0mem
  have hnamemem : (splitOn ':' ((splitOn '@' lastPart).headD [])).headD [] ∈
      splitOn ':' ((splitOn '@' lastPart).headD []) :=
    headD_mem [] (splitOn_ne_nil ':' _)
  refine ⟨⟨?_, ?_, ?_⟩, ?_, ?_⟩
  · exact not_mem_of_mem_splitOn ':' '/' _ hnd0sl _ hnamemem
  · exact sep_not_mem_of_mem_splitOn ':' _ _ hnamemem
  · exact not_mem_of_mem_splitOn ':' '@' _ hnd0at _ hnamemem
  · by_cases hl : 1 < (splitOn ':' ((splitOn '@' lastPart).headD [])).length
    · have hmem := getD_one_mem _ [] hl
      exact ⟨not_mem_of_mem_splitOn ':' '/' _ hnd0sl _ hmem,
        sep_not_mem_of_mem_splitOn ':' _ _ hmem,
        not_mem_of_mem_splitOn ':' '@' _ hnd0at _ hmem⟩
    · have hdef := getD_one_default _ ([] : Str) hl
      simp only [parseNTD, hdef]
      simp
  · by_cases hl : 1 < (splitOn '@' lastPart).length
    · have hmem := getD_one_mem _ [] hl
      exact ⟨not_mem_of_mem_splitOn '@' '/' lastPart h _ hmem,
        sep_not_mem_of_mem_splitOn '@' lastPart _ hmem⟩
    · have hdef := getD_one_default _ ([] : Str) hl
      simp only [parseNTD, hdef]
      simp

theorem WFRef_parseFromParts (parts0 : List Str) (h0 : parts0 ≠ [])
    (hfree : ∀ t ∈ parts0, '/' ∉ t) : WFRef (parseFromParts parts0) := by
  by_cases hc : 1 < parts0.length ∧
      ('.' ∈ parts0.headD [] ∨ ':' ∈ parts0.headD [])
  · cases parts0 with
    | nil => exact absurd rfl h0
    | cons d rest =>
      have hmark : '.' ∈ d ∨ ':' ∈ d := by simpa using hc.2
      have hrest : rest ≠ [] := by
        have hl := hc.1
        cases rest with
        | nil => simp at hl
        | cons y ys => simp
      rw [parseFromParts_cons_domain d rest hrest hmark]
      have hlast : '/' ∉ rest.getLastD [] :=
        hfree _ (List.mem_cons_of_mem d (getLastD_mem [] hrest))
      obtain ⟨hN, hT, hG⟩ := parseNTD_wf _ hlast
      have hdne : d ≠ [] := by
        rcases hmark with hm | hm <;> exact List.ne_nil_of_mem hm
      refine ⟨hN, hT, hG, ?_, ?_, ?_⟩
      · exact hfree d (List.mem_cons_self d rest)
      · intro _; exact hmark
      · intro hd; exact absurd hd hdne
  · rw [parseFromParts_no_domain parts0 h0 hc]
    have hlast : '/' ∉ parts0.getLastD [] := hfree _ (getLastD_mem [] h0)
    obtain ⟨hN, hT, hG⟩ := parseNTD_wf _ hlast
    refine ⟨hN, hT, hG, by simp, fun h => absurd rfl h, ?_⟩
    intro _ hctx
    by_cases hl : 1 < parts0.length
    · have hmarkneg : ¬('.' ∈ parts0.headD [] ∨ ':' ∈ parts0.headD []) :=
        fun hm => hc ⟨hl, hm⟩
      push_neg at hmarkneg
      have hdlne : parts0.dropLast ≠ [] := dropLast_ne_nil_of_one_lt hl
      have hdlfree : ∀ t ∈ parts0.dropLast, '/' ∉ t :=
        fun t ht => hfree t (mem_of_mem_dropLast ht)
      simp only [if_pos hl] at hctx ⊢
      rw [splitOn_joinStr '/' parts0.dropLast hdlne hdlfree,
        headD_dropLast [] hl]
      exact hmarkneg
    · simp only [if_neg hl] at hctx
      exact absurd rfl hctx

theorem WFRef_ParseImageRef (x : Str) : WFRef (ParseImageRef x) := by
  by_cases hx : x = []
  · subst hx
    simp [ParseImageRef, WFRef]
  · rw [ParseImageRef_eq_parseFromParts x hx]
    exact WFRef_parseFromParts _ (splitOn_ne_nil '/' x)
      (sep_not_mem_of_mem_splitOn '/' x)

theorem joinStr_single (sep : Str) (x : Str) : joinStr sep [x] = x := rfl

theorem getLastD_single (a d : Str) : ([a] : List Str).getLastD d = a := rfl

theorem length_append_single_pos (l : List Str) (a : Str) (h : l ≠ []) :
    1 < (l ++ [a]).length := by
  have hp : 0 < l.length := List.length_pos.mpr h
  rw [List.length_append, List.length_singleton]
  omega

/-- Formatting a wellformed reference and re-parsing it is the identity. -/
theorem ParseImageRef_toString_of_WFRef (r : ImageRef) (h : WFRef r) :
    ParseImageRef r.toString = r := by
  obtain ⟨Dm, Cp, Nm, Tg, Dg⟩ := r
  obtain ⟨⟨hN1, hN2, hN3⟩, ⟨hT1, hT2, hT3⟩, ⟨hG1, hG2⟩, hD4, hmark, hctxW⟩ := h
  simp only at hN1 hN2 hN3 hT1 hT2 hT3 hG1 hG2 hD4 hmark hctxW
  have hsc : ('/' : Char) ≠ ':' := by decide
  have hsa : ('/' : Char) ≠ '@' := by decide
  have hlast : '/' ∉ lastSegOf Nm Tg Dg := by
    by_cases ht : Tg = [] <;> by_cases hg : Dg = [] <;>
      simp [lastSegOf, ht, hg, hN1, hT1, hG1, hsc, hsa]
  have hNTD : parseNTD (lastSegOf Nm Tg Dg) =
      { Name := Nm, Tag := Tg, Digest := Dg } :=
    parseNTD_lastSegOf Nm Tg Dg hN2 hN3 hT2 hT3 hG2
  rw [toString_decomp]
  dsimp only
  by_cases hDom : Dm = [] <;> by_cases hCtx : Cp = []
  · -- no domain, no context path: the formatted string is just the last segment
    subst hDom; subst hCtx
    simp only [ne_eq, not_true_eq_false, if_false, List.nil_append]
    rw [joinStr_single]
    by_cases hl : lastSegOf Nm Tg Dg = []
    · have e2 : Tg = [] := by
        by_contra ht
        rw [lastSegOf, if_pos ht] at hl
        simp [List.append_eq_nil] at hl
      have e3 : Dg = [] := by
        by_contra hg
        rw [lastSegOf, if_pos hg] at hl
        simp [List.append_eq_nil] at hl
      have e1 : Nm = [] := by
        rw [lastSegOf, e2, e3] at hl
        simpa using hl
      subst e1; subst e2; subst e3
      simp [lastSegOf, ParseImageRef]
    · rw [ParseImageRef_eq_parseFromParts _ hl, splitOn_of_not_mem '/' hlast,
        parseFromParts_no_domain [lastSegOf Nm Tg Dg] (by simp) (by simp)]
      simp only [getLastD_single, List.length_singleton, lt_irrefl,
        if_false, hNTD]
  · -- no domain, context path present
    subst hDom
    simp only [ne_eq, not_true_eq_false, if_false, if_pos hCtx,
      List.nil_append, List.singleton_append]
    rw [joinStr_cons_cons, joinStr_single, List.append_assoc,
      List.singleton_append]
    have hne : Cp ++ '/' :: lastSegOf Nm Tg Dg ≠ [] := by simp
    rw [ParseImageRef_eq_parseFromParts _ hne, splitOn_append_cons,
      splitOn_of_not_mem '/' hlast]
    have hcsne : splitOn '/' Cp ≠ [] := splitOn_ne_nil '/' Cp
    have hctx' := hctxW rfl hCtx
    have hnd : ¬(1 < (splitOn '/' Cp ++ [lastSegOf Nm Tg Dg]).length ∧
        ('.' ∈ (splitOn '/' Cp ++ [lastSegOf Nm Tg Dg]).headD [] ∨
         ':' ∈ (splitOn '/' Cp ++ [lastSegOf Nm Tg Dg]).headD [])) := by
      rw [headD_append_of_ne_nil _ [] hcsne]
      rintro ⟨-, hm | hm⟩
      · exact hctx'.1 hm
      · exact hctx'.2 hm
    rw [parseFromParts_no_domain _ (by simp) hnd]
    rw [getLastD_append_single, hNTD,
      if_pos (length_append_single_pos _ _ hcsne),
      List.dropLast_concat, joinStr_splitOn '/' Cp]
  · -- domain present, no context path
    subst hCtx
    simp only [ne_eq, not_true_eq_false, if_false, if_pos hDom,
      List.append_nil, List.singleton_append]
    rw [joinStr_cons_cons, joinStr_single, List.append_assoc,
      List.singleton_append]
    have hne : Dm ++ '/' :: lastSegOf Nm Tg Dg ≠ [] := by simp
    rw [ParseImageRef_eq_parseFromParts _ hne, splitOn_append_cons,
      splitOn_of_not_mem '/' hD4, splitOn_of_not_mem '/' hlast]
    rw [show ([Dm] ++ [lastSegOf Nm Tg Dg] : List Str) =
        Dm :: [lastSegOf Nm Tg Dg] from rfl]
    rw [parseFromParts_cons_domain Dm [lastSegOf Nm Tg Dg] (by simp)
      (hmark hDom)]
    simp only [getLastD_single, List.length_singleton, lt_irrefl,
      if_false, hNTD]
  · -- domain and context path both present
    simp only [ne_eq, if_pos hDom, if_pos hCtx, List.singleton_append]
    rw [show (([Dm, Cp] ++ [lastSegOf Nm Tg Dg] : List Str)) =
        Dm :: Cp :: [lastSegOf Nm Tg Dg] from rfl]
    rw [joinStr_cons_cons, joinStr_cons_cons, joinStr_single]
    rw [List.append_assoc, List.singleton_append, List.append_assoc,
      List.singleton_append]
    have hne : Dm ++ '/' :: (Cp ++ '/' :: lastSegOf Nm Tg Dg) ≠ [] := by simp
    rw [ParseImageRef_eq_parseFromParts _ hne, splitOn_append_cons,
      splitOn_of_not_mem '/' hD4, splitOn_append_cons,
      splitOn_of_not_mem '/' hlast]
    have hcsne : splitOn '/' Cp ≠ [] := splitOn_ne_nil '/' Cp
    rw [show ([Dm] ++ (splitOn '/' Cp ++ [lastSegOf Nm Tg Dg]) : List Str) =
        Dm :: (splitOn '/' Cp ++ [lastSegOf Nm Tg Dg]) from rfl]
    rw [parseFromParts_cons_domain Dm _ (by simp) (hmark hDom)]
    rw [getLastD_append_single, hNTD,
      if_pos (length_append_single_pos _ _ hcsne),
      List.dropLast_concat, joinStr_splitOn '/' Cp]

theorem ctxIf_eq_join (parts : List Str) (hp : parts ≠ []) :
    (if 1 < parts.length then joinStr ['/'] parts.dropLast else []) =
    joinStr ['/'] parts.dropLast := by
  by_cases hl : 1 < parts.length
  · simp [hl]
  · cases parts with
    | nil => exact absurd rfl hp
    | cons x xs =>
      cases xs with
      | nil => simp [joinStr]
      | cons y ys =>
        exact absurd (by rw [List.length_cons, List.length_cons]; omega) hl

/-- C1: for every non-empty image-reference string, formatting the parsed
reference and re-parsing yields an identical structure:
`ParseImageRef (ParseImageRef x).String = ParseImageRef x`. -/
theorem claim_C1_roundtrip (x : Str) (hx : x ≠ []) :
    ParseImageRef (ImageRef.toString (ParseImageRef x)) = ParseImageRef x :=
  ParseImageRef_toString_of_WFRef (ParseImageRef x) (WFRef_ParseImageRef x)

/-- Witness for C1 at a concrete non-empty input. -/
theorem claim_C1_roundtrip_witness :
    str "public.ecr.aws/docker/library/alpine@sha256:123" ≠ [] ∧
    ParseImageRef (ImageRef.toString (ParseImageRef
        (str "public.ecr.aws/docker/library/alpine@sha256:123"))) =
      ParseImageRef (str "public.ecr.aws/docker/library/alpine@sha256:123") :=
  ⟨by decide, claim_C1_roundtrip _ (by decide)⟩

/-- The parsing algorithm exactly as the specification words it: split on
`/`; first segment is the domain iff more than one segment exists and it
contains `.` or `:`; the last remaining segment is split on `@` giving the
optional digest, its pre-`@` part is split on `:` giving name and optional
tag; all segments between domain and last are rejoined with `/` as the
context path. -/
def parseImageRefSpec (ref : Str) : ImageRef :=
  if ref = [] then {} else
  let segs := splitOn '/' ref
  let hasDom := 1 < segs.length ∧ ('.' ∈ segs.headD [] ∨ ':' ∈ segs.headD [])
  let domain := if hasDom then segs.headD [] else []
  let rest := if hasDom then segs.tail else segs
  let lastSeg := rest.getLastD []
  let atParts := splitOn '@' lastSeg
  let colonParts := splitOn ':' (atParts.headD [])
  { Domain := domain
    ContextPath := joinStr ['/'] rest.dropLast
    Name := colonParts.headD []
    Tag := colonParts.getD 1 []
    Digest := atParts.getD 1 [] }

/-- C6: `ParseImageRef` is total and agrees everywhere with the algorithm
stated by the specification, and the digest example parses as claimed. -/
theorem claim_C6_parse_algorithm :
    (∀ ref : Str, ParseImageRef ref = parseImageRefSpec ref) ∧
    ParseImageRef (str "public.ecr.aws/docker/library/alpine@sha256:123") =
      { Domain := str "public.ecr.aws", ContextPath := str "docker/library",
        Name := str "alpine", Digest := str "sha256:123" } := by
  constructor
  · intro ref
    by_cases hx : ref = []
    · subst hx; rfl
    · have h0 := splitOn_ne_nil '/' ref
      rw [ParseImageRef_eq_parseFromParts _ hx]
      simp only [parseImageRefSpec, if_neg hx, parseFromParts, parseNTD]
      by_cases hc : 1 < (splitOn '/' ref).length ∧
          ('.' ∈ (splitOn '/' ref).headD [] ∨ ':' ∈ (splitOn '/' ref).headD [])
      · have htail : (splitOn '/' ref).tail ≠ [] := by
          have hlen := hc.1
          cases hp : splitOn '/' ref with
          | nil => exact absurd hp h0
          | cons a rest =>
            rw [hp] at hlen
            cases rest with
            | nil => rw [List.length_cons] at hlen; simp at hlen
            | cons b bs => simp
        have hpos : 0 < (splitOn '/' ref).tail.length := List.length_pos.mpr htail
        simp only [if_pos hc, if_pos hpos]
        rw [ctxIf_eq_join _ htail]
      · have hpos : 0 < (splitOn '/' ref).length := List.length_pos.mpr h0
        simp only [if_neg hc, if_pos hpos]
        rw [ctxIf_eq_join _ h0]
  · decide

/-- C7: runner-image resolution — the empty runner falls back to the default
registry's alpine image; a parsed runner without a domain is formatted with
the default registry as domain; a runner with a domain is formatted
unchanged; with the two concrete examples of the specification. -/
theorem claim_C7_resolve :
    (∀ d : Str, ResolveRunnerImage [] d = d ++ str "/docker/library/alpine:latest") ∧
    (∀ r d : Str, r ≠ [] → (ParseImageRef r).Domain = [] →
      ResolveRunnerImage r d =
        ImageRef.toString { ParseImageRef r with Domain := d }) ∧
    (∀ r d : Str, r ≠ [] → (ParseImageRef r).Domain ≠ [] →
      ResolveRunnerImage r d = ImageRef.toString (ParseImageRef r)) ∧
    ResolveRunnerImage (str "golang:1.22") (str "public.ecr.aws") =
      str "public.ecr.aws/golang:1.22" ∧
    ResolveRunnerImage (str "registry.example.com/golang:1.22")
        (str "public.ecr.aws") =
      str "registry.example.com/golang:1.22" := by
  refine ⟨?_, ?_, ?_, by decide, by decide⟩
  · intro d
    rw [ResolveRunnerImage, if_pos rfl]
  · intro r d hr hd
    simp only [ResolveRunnerImage, if_neg hr, if_pos hd]
  · intro r d hr hd
    simp only [ResolveRunnerImage, if_neg hr, if_neg hd]

/-- Witness for C7 at concrete inputs discharging both hypothesis shapes. -/
theorem claim_C7_resolve_witness :
    (str "golang:1.22" ≠ [] ∧
      (ParseImageRef (str "golang:1.22")).Domain = [] ∧
      ResolveRunnerImage (str "golang:1.22") (str "public.ecr.aws") =
        ImageRef.toString
          { ParseImageRef (str "golang:1.22") with Domain := str "public.ecr.aws" }) ∧
    (str "registry.example.com/golang:1.22" ≠ [] ∧
      (ParseImageRef (str "registry.example.com/golang:1.22")).Domain ≠ [] ∧
      ResolveRunnerImage (str "registry.example.com/golang:1.22")
          (str "public.ecr.aws") =
        ImageRef.toString (ParseImageRef (str "registry.example.com/golang:1.22"))) :=
  ⟨⟨by decide, by decide, claim_C7_resolve.2.1 _ _ (by decide) (by decide)⟩,
   ⟨by decide, by decide, claim_C7_resolve.2.2.1 _ _ (by decide) (by decide)⟩⟩

/-- The single-quote character (written via its code point to keep the
source free of tricky literals). -/
def squote : Char := Char.ofNat 39

/-- The loop body of `lib/docker.go` `splitCommandArgs`, with the loop state
(`args`, `currentArg`, `inQuotes`, `quoteChar`) made explicit.  A quote
character closes the region only when it equals `quoteChar`; a quote of the
other kind inside a region is written literally; a space outside quotes
flushes the current argument; the trailing argument is flushed at the end. -/
def splitLoop (args : List Str) (currentArg : Str) (inQuotes : Bool)
    (quoteChar : Char) : Str → List Str
  | [] => if 0 < currentArg.length then args ++ [currentArg] else args
  | c :: rest =>
    if c = '"' ∨ c = squote then
      if inQuotes ∧ c = quoteChar then
        splitLoop args currentArg false (Char.ofNat 0) rest
      else if ¬inQuotes then splitLoop args currentArg true c rest
      else splitLoop args (currentArg ++ [c]) inQuotes quoteChar rest
    else if c = ' ' ∧ ¬inQuotes then
      if 0 < currentArg.length then
        splitLoop (args ++ [currentArg]) [] inQuotes quoteChar rest
      else splitLoop args currentArg inQuotes quoteChar rest
    else splitLoop args (currentArg ++ [c]) inQuotes quoteChar rest

/-- `lib/docker.go` `splitCommandArgs`: split a command string into
arguments, respecting quotes. -/
def splitCommandArgs (cmd : Str) : List Str :=
  splitLoop [] [] false (Char.ofNat 0) cmd

/-- Spec-level quoted-region consumption: everything up to the first
occurrence of the same quote character is literal content; if the quote is
unterminated, the whole remainder is consumed. -/
def consumeQuoted (q : Char) : Str → Str × Str
  | [] => ([], [])
  | c :: rest =>
    if c = q then ([], rest)
    else
      let p := consumeQuoted q rest
      (c :: p.1, p.2)

theorem consumeQuoted_len (q : Char) (s : Str) :
    (consumeQuoted q s).2.length ≤ s.length := by
  induction s with
  | nil => simp [consumeQuoted]
  | cons c rest ih =>
    by_cases h : c = q <;> simp [consumeQuoted, h] <;> omega

/-- The tokenizer's discipline stated at spec level, with one deliberate
departure from the specification's wording: the spec says tokens split "on
whitespace", but the code (`lib/docker.go` line 287) tests only
`char == ' '`, the space character U+0020, so this machine splits on the
space character alone and any other whitespace (tab, newline) is an
ordinary literal character.  Either quote character opens a region closed
only by the same character, the other quote kind being literal inside; an
unterminated region consumes the rest of the input; the trailing unflushed
token is emitted at end of input. -/
def specTok (cur : Str) (s : Str) : List Str :=
  match s with
  | [] => if cur = [] then [] else [cur]
  | c :: rest =>
    if c = '"' ∨ c = squote then
      specTok (cur ++ (consumeQuoted c rest).1) (consumeQuoted c rest).2
    else if c = ' ' then
      (if cur = [] then [] else [cur]) ++ specTok [] rest
    else specTok (cur ++ [c]) rest
termination_by s.length
decreasing_by
  · have := consumeQuoted_len c rest
    simp only [List.length_cons]
    omega
  · simp only [List.length_cons]
    omega
  · simp only [List.length_cons]
    omega

theorem splitLoop_inQuotes (q : Char) (hq : q = '"' ∨ q = squote) (s : Str) :
    ∀ (args : List Str) (cur : Str),
      splitLoop args cur true q s =
        splitLoop args (cur ++ (consumeQuoted q s).1) false (Char.ofNat 0)
          (consumeQuoted q s).2 := by
  induction s with
  | nil => intro args cur; simp [splitLoop, consumeQuoted]
  | cons c rest ih =>
    intro args cur
    by_cases hc : c = q
    · have hcq : c = '"' ∨ c = squote := hc ▸ hq
      simp only [splitLoop, consumeQuoted, if_pos hcq, hc, and_self,
        if_true, if_pos rfl, List.append_nil]
      simp [hc]
      intro h1 h2
      rcases hq with h | h
      · exact absurd h h1
      · exact absurd h h2
    · by_cases hcq : c = '"' ∨ c = squote
      · simp only [splitLoop, consumeQuoted, if_pos hcq, if_neg hc]
        simp only [true_and, if_neg hc, not_true_eq_false, if_false]
        rw [ih]
        simp
      · simp only [splitLoop, consumeQuoted, if_neg hcq, if_neg hc]
        simp only [not_true_eq_false, and_false, if_false]
        rw [ih]
        simp

theorem splitLoop_false_eq_specTok :
    ∀ (n : ℕ) (s : Str), s.length ≤ n →
    ∀ (args : List Str) (cur : Str) (q0 : Char),
      splitLoop args cur false q0 s = args ++ specTok cur s := by
  intro n
  induction n with
  | zero =>
    intro s hs args cur q0
    have : s = [] := List.length_eq_zero.mp (Nat.le_zero.mp hs)
    subst this
    by_cases hcur : cur = [] <;> simp [splitLoop, specTok, hcur]
  | succ n ih =>
    intro s hs args cur q0
    cases s with
    | nil =>
      by_cases hcur : cur = [] <;> simp [splitLoop, specTok, hcur]
    | cons c rest =>
      have hrest : rest.length ≤ n := by
        rw [List.length_cons] at hs
        omega
      by_cases hcq : c = '"' ∨ c = squote
      · have hlen2 : (consumeQuoted c rest).2.length ≤ n :=
          le_trans (consumeQuoted_len c rest) hrest
        simp only [splitLoop, if_pos hcq, false_and, if_false,
          not_false_eq_true, if_true]
        rw [splitLoop_inQuotes c hcq rest, ih _ hlen2]
        conv_rhs => rw [specTok]
        simp [hcq]
      · by_cases hsp : c = ' '
        · subst hsp
          have hns : ¬(' ' = squote) := fun h => hcq (Or.inr h)
          by_cases hcur : cur = []
          · simp only [splitLoop, if_neg hcq, not_false_eq_true,
              and_true, if_true, hcur, List.length_nil, lt_irrefl, if_false]
            rw [ih _ hrest]
            conv_rhs => rw [specTok]
            simp [hns, hcur]
          · have hlen : 0 < cur.length := List.length_pos.mpr hcur
            simp only [splitLoop, if_neg hcq, not_false_eq_true,
              and_true, if_true, if_pos hlen]
            rw [ih _ hrest]
            conv_rhs => rw [specTok]
            simp [hns, hcur]
        · simp only [splitLoop, if_neg hcq]
          have hcond : ¬(c = ' ' ∧ ¬false) := by simp [hsp]
          rw [if_neg hcond, ih _ hrest]
          conv_rhs => rw [specTok]
          simp [hcq, hsp]

/-- The concrete tokenizer example of the specification. -/
def tokExample : Str :=
  str "echo " ++ '"' :: str "hello world" ++ '"' :: ' ' ::
    squote :: str "foo bar" ++ [squote]

/-- The tab character. -/
def tabChar : Char := Char.ofNat 9

/-- C8 counterexample: the claim says the tokenizer splits on whitespace
outside quoted regions, but on the unquoted input `a<TAB>b` the code yields
the single token `a<TAB>b` — the tab is kept as a literal character — and
not the two tokens `[a, b]` that splitting on whitespace would produce. -/
theorem claim_C8_counterexample :
    splitCommandArgs ['a', tabChar, 'b'] = [['a', tabChar, 'b']] ∧
    splitCommandArgs ['a', tabChar, 'b'] ≠ [['a'], ['b']] := by
  constructor
  · decide
  · decide

/-- C8 (amended): for every command string, the tokenizer splits on the
space character U+0020 only — not on general whitespace; tab and newline
are ordinary literal characters — outside quoted regions; single and double
quotes both open a region, a quote of the other kind inside an open region
is a literal character, a region is closed only by the same quote character
that opened it, and after an unterminated quote the remainder of the input
is consumed as literal content with the trailing token still emitted at end
of input; the concrete quoting example tokenizes as claimed, and the
unquoted tab stays inside its token. -/
theorem claim_C8_tokenizer :
    (∀ cmd : Str, splitCommandArgs cmd = specTok [] cmd) ∧
    splitCommandArgs tokExample =
      [str "echo", str "hello world", str "foo bar"] ∧
    splitCommandArgs ['a', tabChar, 'b'] = [['a', tabChar, 'b']] := by
  refine ⟨?_, by decide, by decide⟩
  intro cmd
  have h := splitLoop_false_eq_specTok cmd.length cmd le_rfl [] []
    (Char.ofNat 0)
  simpa [splitCommandArgs] using h

/-- `lib/docker.go` `Volume`: a docker volume mount configuration.  The Go
field `Type` (bind, cache, tmp) is renamed `Kind` because `Type` is reserved
in Lean; the argv builder never reads it. -/
structure Volume where
  Kind : Str := []
  Source : Str := []
  Target : Str := []
  Readonly : Bool := false
deriving DecidableEq, Repr

/-- `lib/docker.go` `StageExecution`.  The Go `Environment` field is a
`map[string]string`; it is embedded as the sequence of key/value pairs in
the order Go's map iteration yields them. -/
structure StageExecution where
  Name : Str := []
  Runner : Str := []
  Commands : List Str := []
  Environment : List (Str × Str) := []
  Volumes : List Volume := []
deriving DecidableEq, Repr

/-- The `-v` argument value built for one volume (`ExecuteStage`,
`lib/docker.go` lines 188-199): `source:target`, plus `:` and the
comma-joined mount options when any are present (only `ro` exists). -/
def volumeArg (vol : Volume) : Str :=
  let mountOpts : List Str := if vol.Readonly then [str "ro"] else []
  let arg := vol.Source ++ ':' :: vol.Target
  if 0 < mountOpts.length then arg ++ ':' :: joinStr [','] mountOpts else arg

/-- The argv assembled by `ExecuteStage` (`lib/docker.go` lines 174-213):
fixed prefix, `-e` pairs, `-v` pairs, the runner image, then the command
part depending on how many commands the stage has. -/
def buildDockerArgs (stage : StageExecution) : List Str :=
  let base := [str "docker", str "run", str "--rm", str "--init",
    str "--workdir", str "/workspace"]
  let withEnv := base ++
    stage.Environment.flatMap (fun kv => [str "-e", kv.1 ++ '=' :: kv.2])
  let withVols := withEnv ++
    stage.Volumes.flatMap (fun vol => [str "-v", volumeArg vol])
  let withImage := withVols ++ [stage.Runner]
  if stage.Commands.length = 1 then
    withImage ++ splitCommandArgs (stage.Commands.headD [])
  else if 1 < stage.Commands.length then
    withImage ++ [str "sh", str "-c", joinStr (str " && ") stage.Commands]
  else withImage

/-- C5: the exact shape of the assembled argv, for every stage: fixed
prefix, one `-e key=value` pair per environment entry, one
`-v src:target[:ro]` pair per volume with `:ro` exactly when readonly,
the runner image, then the tokenized single command, or `sh -c` with the
` && `-join of several commands, or nothing; with the two concrete argv
examples of the specification. -/
theorem claim_C5_argv_shape :
    (∀ stage : StageExecution,
      buildDockerArgs stage =
        [str "docker", str "run", str "--rm", str "--init",
          str "--workdir", str "/workspace"] ++
        stage.Environment.flatMap (fun kv => [str "-e", kv.1 ++ '=' :: kv.2]) ++
        stage.Volumes.flatMap (fun vol => [str "-v",
          vol.Source ++ ':' :: vol.Target ++
            (if vol.Readonly then ':' :: str "ro" else [])]) ++
        [stage.Runner] ++
        (match stage.Commands with
          | [] => []
          | [c] => splitCommandArgs c
          | cs => [str "sh", str "-c", joinStr (str " && ") cs])) ∧
    buildDockerArgs
        { Runner := str "alpine:latest",
          Commands := [str "go test ./..."] } =
      [str "docker", str "run", str "--rm", str "--init", str "--workdir",
        str "/workspace", str "alpine:latest", str "go", str "test",
        str "./..."] ∧
    buildDockerArgs
        { Runner := str "alpine:latest",
          Commands := [str "echo hello", str "echo world"] } =
      [str "docker", str "run", str "--rm", str "--init", str "--workdir",
        str "/workspace", str "alpine:latest", str "sh", str "-c",
        str "echo hello && echo world"] := by
  refine ⟨?_, by decide, by decide⟩
  intro stage
  obtain ⟨nm, rn, cmds, env, vols⟩ := stage
  have hvol : (fun vol => [str "-v", volumeArg vol]) =
      (fun vol : Volume => [str "-v",
        vol.Source ++ ':' :: vol.Target ++
          (if vol.Readonly then ':' :: str "ro" else [])]) := by
    funext vol
    by_cases h : vol.Readonly <;>
      simp [volumeArg, h, joinStr, List.append_assoc]
  simp only [buildDockerArgs, hvol]
  rcases cmds with _ | ⟨c, _ | ⟨c2, cs⟩⟩ <;>
    simp [List.append_assoc]

/-- A wall-clock instant, to the precision Go's `time.Time` offers as far as
this program observes it: calendar fields down to seconds, plus nanoseconds
which the second-resolution format `20060102-150405` discards. -/
structure Time where
  year : Nat := 0
  month : Nat := 0
  day : Nat := 0
  hour : Nat := 0
  minute : Nat := 0
  second : Nat := 0
  nanosecond : Nat := 0
deriving DecidableEq, Repr

/-- Decimal rendering of a number, left-padded with zeros to a width, as
Go's reference-time format components do. -/
def padNum (w n : Nat) : Str :=
  let d := Nat.toDigits 10 n
  List.replicate (w - d.length) '0' ++ d

/-- Go `StartTime.Format("20060102-150405")`: `YYYYMMDD-HHMMSS`. -/
def Time.formatYMDHMS (t : Time) : Str :=
  padNum 4 t.year ++ padNum 2 t.month ++ padNum 2 t.day ++ '-' ::
    (padNum 2 t.hour ++ padNum 2 t.minute ++ padNum 2 t.second)

/-- `lib/audit.go` `AuditLog`.  Go's `Duration float64` is embedded as an
integer because the program only ever leaves it at its zero value. -/
structure AuditLog where
  Project : Str := []
  GitRevision : Str := []
  Stage : Str := []
  Command : Str := []
  StartTime : Time := {}
  Duration : Int := 0
  Status : Str := []
  Error : Str := []
deriving DecidableEq, Repr

/-- `lib/audit.go` `AuditLog.SetError`: mark the record as failed with the
error's message. -/
def AuditLog.SetError (a : AuditLog) (msg : Str) : AuditLog :=
  { a with Status := str "error", Error := msg }

/-- `lib/audit.go` `AuditLog.generateFilename`:
`{project}-{stage}-{YYYYMMDD-HHMMSS}.json`. -/
def AuditLog.generateFilename (a : AuditLog) : Str :=
  a.Project ++ '-' :: a.Stage ++ '-' ::
    (Time.formatYMDHMS a.StartTime ++ str ".json")

/-- `lib/docker.go` `DockerResult`.  A Go `error` is `none` when nil and
`some msg` when non-nil with message `msg`. -/
structure DockerResult where
  Stdout : Str := []
  Stderr : Str := []
  Error : Option Str := none
  ExitCode : Int := 0
deriving DecidableEq, Repr

/-- `lib/docker.go` `ExecuteStage`, with its external effects passed in as
oracles: `startTime` is the `time.Now()` reading, `gitRevResult` the outcome
of `GetGitRevision`, `auditStorePresent` whether `auditStore != nil`,
`storeErr1`/`storeErr2` the values the two possible `auditStore.Store`
calls return (the code only prints them), and `result` the outcome
`ExecDocker` produces for the assembled argv.  The value is the ordered
list of `AuditLog`s passed to `Store` together with the function's return
value. -/
def ExecuteStage (stage : StageExecution) (auditStorePresent : Bool)
    (projectName : Str) (startTime : Time) (gitRevResult : Except Str Str)
    (_storeErr1 _storeErr2 : Option Str) (result : DockerResult) :
    List AuditLog × Option Str :=
  let gitRev := match gitRevResult with
    | Except.ok rev => rev
    | Except.error _ => str "unknown"
  let dockerArgs := buildDockerArgs stage
  let fullCommand := joinStr [' '] dockerArgs
  let auditLog : AuditLog :=
    { Project := projectName
      GitRevision := gitRev
      Stage := stage.Name
      Command := fullCommand
      StartTime := startTime
      Status := str "success" }
  let firstWrites := if auditStorePresent then [auditLog] else []
  match result.Error with
  | some msg =>
    (firstWrites ++ (if auditStorePresent then [auditLog.SetError msg] else []),
      some msg)
  | none => (firstWrites, none)

/-- The first audit record `ExecuteStage` builds, as a standalone function
for the proofs. -/
def initialAuditLog (stage : StageExecution) (proj : Str) (t : Time)
    (gitRes : Except Str Str) : AuditLog :=
  { Project := proj
    GitRevision := match gitRes with
      | Except.ok rev => rev
      | Except.error _ => str "unknown"
    Stage := stage.Name
    Command := joinStr [' '] (buildDockerArgs stage)
    StartTime := t
    Status := str "success" }

theorem ExecuteStage_eq_error (stage : StageExecution) (present : Bool)
    (proj : Str) (t : Time) (gitRes : Except Str Str) (se1 se2 : Option Str)
    (result : DockerResult) (msg : Str) (h : result.Error = some msg) :
    ExecuteStage stage present proj t gitRes se1 se2 result =
      ((if present then [initialAuditLog stage proj t gitRes] else []) ++
        (if present
          then [(initialAuditLog stage proj t gitRes).SetError msg] else []),
        some msg) := by
  simp only [ExecuteStage, initialAuditLog, h]

theorem ExecuteStage_eq_ok (stage : StageExecution) (present : Bool)
    (proj : Str) (t : Time) (gitRes : Except Str Str) (se1 se2 : Option Str)
    (result : DockerResult) (h : result.Error = none) :
    ExecuteStage stage present proj t gitRes se1 se2 result =
      ((if present then [initialAuditLog stage proj t gitRes] else []),
        none) := by
  simp only [ExecuteStage, initialAuditLog, h]

/-- C2: with a non-null audit store, a failing process invocation produces
exactly two `Store` calls — the first with status `success`, the second with
status `error` carrying the invocation error's message (non-empty whenever
the message is) — while a successful invocation produces exactly one call,
with status `success`. -/
theorem claim_C2_store_calls (stage : StageExecution) (proj : Str) (t : Time)
    (gitRes : Except Str Str) (se1 se2 : Option Str) (result : DockerResult) :
    (∀ msg : Str, result.Error = some msg → msg ≠ [] →
      ∃ l1 l2, (ExecuteStage stage true proj t gitRes se1 se2 result).1 =
          [l1, l2] ∧
        l1.Status = str "success" ∧ l2.Status = str "error" ∧
        l2.Error = msg ∧ l2.Error ≠ []) ∧
    (result.Error = none →
      ∃ l1, (ExecuteStage stage true proj t gitRes se1 se2 result).1 = [l1] ∧
        l1.Status = str "success") := by
  constructor
  · intro msg hmsg hne
    refine ⟨initialAuditLog stage proj t gitRes,
      (initialAuditLog stage proj t gitRes).SetError msg, ?_, rfl, rfl, rfl,
      hne⟩
    rw [ExecuteStage_eq_error stage true proj t gitRes se1 se2 result msg hmsg]
    rfl
  · intro hnone
    refine ⟨initialAuditLog stage proj t gitRes, ?_, rfl⟩
    rw [ExecuteStage_eq_ok stage true proj t gitRes se1 se2 result hnone]
    rfl

/-- Witness for C2 at a failing and at a succeeding concrete invocation. -/
theorem claim_C2_store_calls_witness :
    ((let r := ExecuteStage {} true (str "p") {} (Except.ok (str "rev"))
        none none { Error := some (str "boom") }
      ∃ l1 l2, r.1 = [l1, l2] ∧
        l1.Status = str "success" ∧ l2.Status = str "error" ∧
        l2.Error = str "boom" ∧ l2.Error ≠ []) ∧
     (let r := ExecuteStage {} true (str "p") {} (Except.ok (str "rev"))
        none none {}
      ∃ l1, r.1 = [l1] ∧ l1.Status = str "success")) :=
  ⟨(claim_C2_store_calls {} (str "p") {} (Except.ok (str "rev")) none none
      { Error := some (str "boom") }).1 (str "boom") rfl (by decide),
   (claim_C2_store_calls {} (str "p") {} (Except.ok (str "rev")) none none
      {}).2 rfl⟩

/-- C3: `ExecuteStage` returns an error exactly when the external process
invocation does, and returns that same error; a failed git-revision lookup
only turns the stored revision into the literal `"unknown"`, and neither it
nor the values returned by `auditStore.Store` (quantified here) influence
the returned error. -/
theorem claim_C3_error_propagation (stage : StageExecution) (present : Bool)
    (proj : Str) (t : Time) (gitRes : Except Str Str) (se1 se2 : Option Str)
    (result : DockerResult) :
    (ExecuteStage stage present proj t gitRes se1 se2 result).2 =
      result.Error ∧
    (∀ e : Str, gitRes = Except.error e →
      ∀ l ∈ (ExecuteStage stage present proj t gitRes se1 se2 result).1,
        l.GitRevision = str "unknown") := by
  constructor
  · rcases h : result.Error with _ | msg
    · rw [ExecuteStage_eq_ok stage present proj t gitRes se1 se2 result h]
    · rw [ExecuteStage_eq_error stage present proj t gitRes se1 se2 result
        msg h]
  · intro e he l hl
    subst he
    rcases h : result.Error with _ | msg
    · rw [ExecuteStage_eq_ok stage present proj t _ se1 se2 result h] at hl
      cases present
      · simp at hl
      · simp at hl
        rw [hl]
        rfl
    · rw [ExecuteStage_eq_error stage present proj t _ se1 se2 result
        msg h] at hl
      cases present
      · simp at hl
      · simp at hl
        rcases hl with hl | hl <;> rw [hl] <;> rfl

/-- Witness for C3: a failing git lookup plus a failing invocation. -/
theorem claim_C3_error_propagation_witness :
    (ExecuteStage {} true (str "p") {} (Except.error (str "git failed"))
        none none { Error := some (str "boom") }).2 = some (str "boom") ∧
    ((ExecuteStage {} true (str "p") {} (Except.error (str "git failed"))
        none none { Error := some (str "boom") }).1.headD {}).GitRevision =
      str "unknown" :=
  ⟨(claim_C3_error_propagation {} true (str "p") {}
      (Except.error (str "git failed")) none none
      { Error := some (str "boom") }).1,
   (claim_C3_error_propagation {} true (str "p") {}
      (Except.error (str "git failed")) none none
      { Error := some (str "boom") }).2 (str "git failed") rfl _
     (by decide)⟩

/-- C10: on the failure path the second stored record agrees with the first
on project, git revision, stage, command and start time, differing only in
status (now `error`) and error (the process error's message); and the
duration field is zero in every record `ExecuteStage` ever stores. -/
theorem claim_C10_second_record_frame (stage : StageExecution) (proj : Str)
    (t : Time) (gitRes : Except Str Str) (se1 se2 : Option Str)
    (result : DockerResult) :
    (∀ msg : Str, result.Error = some msg →
      ∃ l1 l2, (ExecuteStage stage true proj t gitRes se1 se2 result).1 =
          [l1, l2] ∧
        l2.Project = l1.Project ∧ l2.GitRevision = l1.GitRevision ∧
        l2.Stage = l1.Stage ∧ l2.Command = l1.Command ∧
        l2.StartTime = l1.StartTime ∧
        l1.Status = str "success" ∧ l1.Error = [] ∧
        l2.Status = str "error" ∧ l2.Error = msg) ∧
    (∀ present : Bool,
      ∀ l ∈ (ExecuteStage stage present proj t gitRes se1 se2 result).1,
        l.Duration = 0) := by
  constructor
  · intro msg hmsg
    refine ⟨initialAuditLog stage proj t gitRes,
      (initialAuditLog stage proj t gitRes).SetError msg, ?_, rfl, rfl, rfl,
      rfl, rfl, rfl, rfl, rfl, rfl⟩
    rw [ExecuteStage_eq_error stage true proj t gitRes se1 se2 result msg hmsg]
    rfl
  · intro present l hl
    rcases h : result.Error with _ | msg
    · rw [ExecuteStage_eq_ok stage present proj t gitRes se1 se2 result h]
        at hl
      cases present
      · simp at hl
      · simp at hl
        rw [hl]
        rfl
    · rw [ExecuteStage_eq_error stage present proj t gitRes se1 se2 result
        msg h] at hl
      cases present
      · simp at hl
      · simp at hl
        rcases hl with hl | hl <;> rw [hl] <;> rfl

/-- Witness for C10 at a concrete failing invocation. -/
theorem claim_C10_second_record_frame_witness :
    ((let r := ExecuteStage {} true (str "p") {} (Except.ok (str "rev"))
        none none { Error := some (str "boom") }
      ∃ l1 l2, r.1 = [l1, l2] ∧
        l2.Project = l1.Project ∧ l2.GitRevision = l1.GitRevision ∧
        l2.Stage = l1.Stage ∧ l2.Command = l1.Command ∧
        l2.StartTime = l1.StartTime ∧
        l1.Status = str "success" ∧ l1.Error = [] ∧
        l2.Status = str "error" ∧ l2.Error = str "boom") ∧
     ((ExecuteStage {} true (str "p") {} (Except.ok (str "rev"))
        none none { Error := some (str "boom") }).1.headD {}).Duration = 0) :=
  ⟨(claim_C10_second_record_frame {} (str "p") {} (Except.ok (str "rev"))
      none none { Error := some (str "boom") }).1 (str "boom") rfl,
   (claim_C10_second_record_frame {} (str "p") {} (Except.ok (str "rev"))
      none none { Error := some (str "boom") }).2 true _ (by decide)⟩

/-- Go `strings.HasPrefix`. -/
def hasPfx : Str → Str → Bool
  | [], _ => true
  | _ :: _, [] => false
  | a :: p, b :: s => a == b && hasPfx p s

/-- Go `strings.HasSuffix`. -/
def hasSfx (sfx s : Str) : Bool := hasPfx sfx.reverse s.reverse

/-- The filename filter of `FileStore.LoadLogs` (`lib/audit.go` line 144):
`{project}-` prefix and `.json` suffix. -/
def logNameMatches (project name : Str) : Bool :=
  hasPfx (project ++ ['-']) name && hasSfx (str ".json") name

/-- `lib/audit.go` `FileStore.LoadLogs`, with the directory listing passed
in as the ordered list of entries; each entry carries its name and the
outcome of reading-and-unmarshalling it (`Except.error` when either the
read or the JSON parse fails, which aborts the whole call as in the Go
code).  Matching entries whose record carries the requested git revision
are collected in order. -/
def LoadLogs (project gitRevision : Str) :
    List (Str × Except Str AuditLog) → Except Str (List AuditLog)
  | [] => Except.ok []
  | (name, content) :: rest =>
    if logNameMatches project name then
      match content with
      | Except.error e => Except.error e
      | Except.ok log =>
        match LoadLogs project gitRevision rest with
        | Except.error e => Except.error e
        | Except.ok logs =>
          Except.ok (if log.GitRevision = gitRevision then log :: logs
            else logs)
    else LoadLogs project gitRevision rest

/-- Equality of two instants at second resolution (the nanosecond field is
what the filename format discards). -/
def sameSecond (t1 t2 : Time) : Prop :=
  t1.year = t2.year ∧ t1.month = t2.month ∧ t1.day = t2.day ∧
  t1.hour = t2.hour ∧ t1.minute = t2.minute ∧ t1.second = t2.second

/-- C9: the filesystem store's key is
`{project}-{stage}-{YYYYMMDD-HHMMSS}.json`, so records agreeing on project,
stage and start time to the second collide on the same key; and retrieval
returns exactly the records of the files whose name has the `{project}-`
prefix and `.json` suffix and whose stored git revision equals the
requested one. -/
theorem claim_C9_filestore :
    (∀ a b : AuditLog, a.Project = b.Project → a.Stage = b.Stage →
      sameSecond a.StartTime b.StartTime →
      a.generateFilename = b.generateFilename) ∧
    (∀ (project rev : Str) (entries : List (Str × Except Str AuditLog)),
      (∀ p ∈ entries, logNameMatches project p.1 = true →
        ∃ log, p.2 = Except.ok log) →
      LoadLogs project rev entries = Except.ok (entries.filterMap fun p =>
        match p.2 with
        | Except.ok log =>
          if logNameMatches project p.1 = true ∧ log.GitRevision = rev
          then some log else none
        | Except.error _ => none)) := by
  constructor
  · rintro a b hp hs ⟨h1, h2, h3, h4, h5, h6⟩
    simp only [AuditLog.generateFilename, Time.formatYMDHMS, hp, hs, h1, h2,
      h3, h4, h5, h6]
  · intro project rev entries
    induction entries with
    | nil => intro _; rfl
    | cons p rest ih =>
      intro hparse
      obtain ⟨name, content⟩ := p
      have hrest := fun q hq => hparse q (List.mem_cons_of_mem _ hq)
      by_cases hm : logNameMatches project name = true
      · obtain ⟨log, hlog⟩ :=
          hparse ⟨name, content⟩ (List.mem_cons_self _ _) hm
        subst hlog
        simp only [LoadLogs, if_pos hm]
        rw [ih hrest]
        by_cases hg : log.GitRevision = rev <;>
          simp [List.filterMap_cons, hm, hg]
      · simp only [LoadLogs, if_neg hm]
        rw [ih hrest]
        cases content <;> simp [List.filterMap_cons, hm]

/-- Witness for C9: records differing only in nanoseconds (and unrelated
fields) share a key, and a concrete retrieval. -/
theorem claim_C9_filestore_witness :
    (AuditLog.generateFilename
        { Project := str "p", Stage := str "s", Command := str "x",
          StartTime :=
            { year := 2024, month := 1, day := 2, hour := 3, minute := 4,
              second := 5, nanosecond := 6 } } =
      AuditLog.generateFilename
        { Project := str "p", Stage := str "s", Command := str "y",
          StartTime :=
            { year := 2024, month := 1, day := 2, hour := 3, minute := 4,
              second := 5, nanosecond := 7 } }) ∧
    LoadLogs (str "p") (str "r")
        [(str "p-s-x.json", Except.ok { GitRevision := str "r" }),
         (str "other.txt", Except.error (str "bad")),
         (str "p-s-y.json", Except.ok { GitRevision := str "q" })] =
      Except.ok [{ GitRevision := str "r" }] :=
  ⟨claim_C9_filestore.1 _ _ rfl rfl ⟨rfl, rfl, rfl, rfl, rfl, rfl⟩,
   (claim_C9_filestore.2 (str "p") (str "r")
      [(str "p-s-x.json", Except.ok { GitRevision := str "r" }),
       (str "other.txt", Except.error (str "bad")),
       (str "p-s-y.json", Except.ok { GitRevision := str "q" })]
      (by
        intro p hp hm
        simp only [List.mem_cons, List.not_mem_nil, or_false] at hp
        rcases hp with h | h | h
        · exact ⟨_, by rw [h]⟩
        · rw [h] at hm
          exact absurd hm (by decide)
        · exact ⟨_, by rw [h]⟩)).trans rfl⟩

/-- The `audit` section of `main.go`'s `Config`. -/
structure AuditConfig where
  Store : Str := []
  Path : Str := []
  S3Bucket : Str := []
deriving DecidableEq, Repr

/-- The store value `main.go` `createAuditStore` constructs on success. -/
inductive AuditStoreKind where
  | fileStore (directory : Str)
  | s3Store (bucket keyPfx : Str)
deriving DecidableEq, Repr

/-- `main.go` `createAuditStore`: CLI flags take precedence over the config
file; the kind defaults to `file`; the file path defaults to `.logs`; the
`s3` kind requires a bucket and an S3 client (whose construction outcome is
the `s3Client` oracle); any other kind is an error. -/
def createAuditStore (cfg : AuditConfig)
    (flagStore flagPath flagBucket : Str) (s3Client : Except Str Unit) :
    Except Str AuditStoreKind :=
  let storeType := if flagStore ≠ [] then flagStore
    else if cfg.Store ≠ [] then cfg.Store else str "file"
  if storeType = str "file" then
    let path := if flagPath ≠ [] then flagPath
      else if cfg.Path ≠ [] then cfg.Path else str ".logs"
    Except.ok (AuditStoreKind.fileStore path)
  else if storeType = str "s3" then
    let bucket := if flagBucket ≠ [] then flagBucket else cfg.S3Bucket
    if bucket = [] then
      Except.error (str "s3 bucket must be specified for s3 audit store")
    else
      let pfx := if flagPath ≠ [] then flagPath else cfg.Path
      match s3Client with
      | Except.error e => Except.error (str "creating S3 client: " ++ e)
      | Except.ok _ => Except.ok (AuditStoreKind.s3Store bucket pfx)
  else Except.error (str "unknown audit store type: " ++ storeType)

/-- What one run of the `Action` closure of `main.go` `createStageCommand`
(lines 219-238) does, observed through the same oracles as `ExecuteStage`.
The Go code prints a store-construction error to stderr and **continues**
(`store` stays nil), so `lib.ExecuteStage` — and with it the external
process — runs unconditionally. -/
structure StageActionOutcome where
  storeError : Option Str
  processInvoked : Bool
  storedLogs : List AuditLog
  retval : Option Str
deriving DecidableEq, Repr

def stageCommandAction (cfg : AuditConfig)
    (flagStore flagPath flagBucket : Str) (s3Client : Except Str Unit)
    (stage : StageExecution) (projectName : Str) (startTime : Time)
    (gitRevResult : Except Str Str) (se1 se2 : Option Str)
    (result : DockerResult) : StageActionOutcome :=
  let storeRes := createAuditStore cfg flagStore flagPath flagBucket s3Client
  let present := match storeRes with
    | Except.ok _ => true
    | Except.error _ => false
  let r := ExecuteStage stage present projectName startTime gitRevResult
    se1 se2 result
  { storeError := match storeRes with
      | Except.error e => some e
      | Except.ok _ => none
    processInvoked := true
    storedLogs := r.1
    retval := r.2 }

/-- C4 counterexample: with the unknown kind `bogus`, store construction
fails as the claim says, but the stage still runs — the process is invoked
and the stage action returns the process outcome — so the failure is not
fatal and does not happen before the stage's process invocation. -/
theorem claim_C4_counterexample :
    createAuditStore { Store := str "bogus" } [] [] [] (Except.ok ()) =
      Except.error (str "unknown audit store type: bogus") ∧
    (stageCommandAction { Store := str "bogus" } [] [] [] (Except.ok ())
        {} (str "p") {} (Except.ok (str "rev")) none none
        {}).processInvoked = true ∧
    (stageCommandAction { Store := str "bogus" } [] [] [] (Except.ok ())
        {} (str "p") {} (Except.ok (str "rev")) none none
        {}).retval = none := by
  refine ⟨?_, rfl, rfl⟩
  decide

/-- C4 (amended): when the configured kind is neither `file` nor `s3`, or is
`s3` with no bucket configured, store construction fails with an error; but
the failure is not fatal — the stage action still invokes the stage's
process (with a nil audit store, so nothing is persisted) and returns the
process's own outcome. -/
theorem claim_C4_store_construction (cfg : AuditConfig)
    (flagStore flagPath flagBucket : Str) (s3c : Except Str Unit) :
    (((if flagStore ≠ [] then flagStore
       else if cfg.Store ≠ [] then cfg.Store else str "file") ≠ str "file") →
     ((if flagStore ≠ [] then flagStore
       else if cfg.Store ≠ [] then cfg.Store else str "file") ≠ str "s3") →
      ∃ e, createAuditStore cfg flagStore flagPath flagBucket s3c =
        Except.error e) ∧
    (((if flagStore ≠ [] then flagStore
       else if cfg.Store ≠ [] then cfg.Store else str "file") = str "s3") →
      flagBucket = [] → cfg.S3Bucket = [] →
      ∃ e, createAuditStore cfg flagStore flagPath flagBucket s3c =
        Except.error e) ∧
    (∀ (stage : StageExecution) (proj : Str) (t : Time)
        (gitRes : Except Str Str) (se1 se2 : Option Str)
        (result : DockerResult),
      (stageCommandAction cfg flagStore flagPath flagBucket s3c stage proj t
        gitRes se1 se2 result).processInvoked = true ∧
      (∀ e, createAuditStore cfg flagStore flagPath flagBucket s3c =
          Except.error e →
        (stageCommandAction cfg flagStore flagPath flagBucket s3c stage proj
          t gitRes se1 se2 result).storedLogs = [] ∧
        (stageCommandAction cfg flagStore flagPath flagBucket s3c stage proj
          t gitRes se1 se2 result).retval = result.Error)) := by
  refine ⟨?_, ?_, ?_⟩
  · intro h1 h2
    refine ⟨str "unknown audit store type: " ++
      (if flagStore ≠ [] then flagStore
       else if cfg.Store ≠ [] then cfg.Store else str "file"), ?_⟩
    rw [createAuditStore]
    rw [if_neg h1, if_neg h2]
  · intro h1 hb hc
    refine ⟨str "s3 bucket must be specified for s3 audit store", ?_⟩
    rw [createAuditStore]
    have hnf : (if flagStore ≠ [] then flagStore
        else if cfg.Store ≠ [] then cfg.Store else str "file") ≠ str "file" := by
      rw [h1]
      decide
    rw [if_neg hnf, if_pos h1, hb]
    simp [hc]
  · intro stage proj t gitRes se1 se2 result
    refine ⟨rfl, ?_⟩
    intro e he
    constructor
    · simp only [stageCommandAction, he]
      rcases h : result.Error with _ | msg
      · rw [ExecuteStage_eq_ok stage false proj t gitRes se1 se2 result h]
        rfl
      · rw [ExecuteStage_eq_error stage false proj t gitRes se1 se2 result
          msg h]
        rfl
    · simp only [stageCommandAction, he]
      rcases h : result.Error with _ | msg
      · rw [ExecuteStage_eq_ok stage false proj t gitRes se1 se2 result h]
      · rw [ExecuteStage_eq_error stage false proj t gitRes se1 se2 result
          msg h]

/-- Witness for the amended C4 at concrete inputs: an unknown kind, an `s3`
kind without a bucket, and a run whose store construction failed. -/
theorem claim_C4_store_construction_witness :
    ((∃ e, createAuditStore { Store := str "bogus" } [] [] []
        (Except.ok ()) = Except.error e) ∧
     (∃ e, createAuditStore { Store := str "s3" } [] [] []
        (Except.ok ()) = Except.error e) ∧
     ((stageCommandAction { Store := str "bogus" } [] [] [] (Except.ok ())
        {} (str "p") {} (Except.ok (str "rev")) none none
        { Error := some (str "boom") }).processInvoked = true ∧
      (stageCommandAction { Store := str "bogus" } [] [] [] (Except.ok ())
        {} (str "p") {} (Except.ok (str "rev")) none none
        { Error := some (str "boom") }).storedLogs = [] ∧
      (stageCommandAction { Store := str "bogus" } [] [] [] (Except.ok ())
        {} (str "p") {} (Except.ok (str "rev")) none none
        { Error := some (str "boom") }).retval = some (str "boom"))) :=
  ⟨(claim_C4_store_construction { Store := str "bogus" } [] [] []
      (Except.ok ())).1 (by decide) (by decide),
   (claim_C4_store_construction { Store := str "s3" } [] [] []
      (Except.ok ())).2.1 (by decide) rfl rfl,
   ((claim_C4_store_construction { Store := str "bogus" } [] [] []
      (Except.ok ())).2.2 {} (str "p") {} (Except.ok (str "rev")) none none
      { Error := some (str "boom") }).1,
   ((claim_C4_store_construction { Store := str "bogus" } [] [] []
        (Except.ok ())).2.2 {} (str "p") {} (Except.ok (str "rev")) none none
      { Error := some (str "boom") }).2
     (str "unknown audit store type: bogus") (by decide) |>.1,
   ((claim_C4_store_construction { Store := str "bogus" } [] [] []
        (Except.ok ())).2.2 {} (str "p") {} (Except.ok (str "rev")) none none
      { Error := some (str "boom") }).2
     (str "unknown audit store type: bogus") (by decide) |>.2⟩
